import Mathlib

/-!
Verification development for the StarTap-Fast-Search indexing-and-serving
subsystem (Rust sources under `src/`).  Strings are modelled as lists of
characters; Rust's `str::to_uppercase` / `to_lowercase` are modelled
per-character (faithful on the ASCII range, where all inputs of interest
live); `f32` ranking scores are modelled as rationals (only the exact
values 0 and 1 ever occur in the modelled code paths).
-/

/-- Strings as character lists. -/
abbrev Str := List Char

/-- Model of Rust `str::to_uppercase` (per-character, ASCII-faithful). -/
def upperStr (s : Str) : Str := s.map Char.toUpper

/-- Model of Rust `str::to_lowercase` (per-character, ASCII-faithful). -/
def lowerStr (s : Str) : Str := s.map Char.toLower

/-- `isPrefixSub pat s` : `pat` occurs at the start of `s`. -/
def isPrefixSub : Str → Str → Bool
  | [], _ => true
  | _ :: _, [] => false
  | p :: ps, c :: cs => p = c && isPrefixSub ps cs

/-- Model of Rust `str::contains` (substring occurrence). -/
def containsSub : Str → Str → Bool
  | s, pat =>
    match s with
    | [] => pat.isEmpty
    | _ :: t => isPrefixSub pat s || containsSub t pat

/-- The catalog record type (`src/types.rs`, `FileEntry`).  `size` and
`modified` are `u64` in the source; all sites in the modelled code only
store and copy them, so they are modelled as `Nat`.  `score` is `f32` in
the source, modelled as `ℚ`. -/
structure FileEntry where
  name : Str
  path : Str
  extension : Str
  size : Nat
  modified : Nat
  is_dir : Bool
  drive : Char
  score : Rat
deriving DecidableEq, Repr

/-- Whether the entry's name contains the (already-uppercased) query,
case-insensitively: `e.name.to_uppercase().contains(&query_upper)`. -/
def nameMatch (qU : Str) (e : FileEntry) : Bool :=
  containsSub (upperStr e.name) qU

/-- The search filter from `LocalNtfsSearcher::search`:
`e.name.to_uppercase().contains(&query_upper) || e.path.to_uppercase().contains(&query_upper)`. -/
def matchesQuery (qU : Str) (e : FileEntry) : Bool :=
  containsSub (upperStr e.name) qU || containsSub (upperStr e.path) qU

/-- `Ordering` comparison of booleans with `false < true` (Rust `bool: Ord`). -/
def cmpBool : Bool → Bool → Ordering
  | false, false => .eq
  | false, true => .lt
  | true, false => .gt
  | true, true => .eq

/-- The comparator passed to `results.sort_by` in `LocalNtfsSearcher::search`:
`b_name_match.cmp(&a_name_match).then_with(|| a.name.len().cmp(&b.name.len()))`. -/
def entryCmp (qU : Str) (a b : FileEntry) : Ordering :=
  (cmpBool (nameMatch qU b) (nameMatch qU a)).then (compare a.name.length b.name.length)

/-- The (total pre-)order induced by `entryCmp`: `a` sorts no later than `b`.
Rust's `sort_by` is a stable sort by this comparator; the stable sort for a
total preorder is unique, so it is modelled below by `List.insertionSort`. -/
def entryLe (qU : Str) (a b : FileEntry) : Prop :=
  entryCmp qU a b ≠ Ordering.gt

instance (qU : Str) : DecidableRel (entryLe qU) := by
  intro a b
  unfold entryLe
  infer_instance

/-- `LocalNtfsSearcher::search` (`src/ntfs_search.rs` lines 277-299):
empty query returns the first `max_results` entries in index order;
otherwise filter by case-insensitive substring match on name or path,
take at most `max_results * 5` candidates, stably sort by the comparator,
truncate to `max_results`. -/
def search (index : List FileEntry) (query : Str) (max_results : Nat) : List FileEntry :=
  if query = [] then index.take max_results
  else
    let query_upper := upperStr query
    let results := (index.filter (fun e => matchesQuery query_upper e)).take (max_results * 5)
    (List.insertionSort (entryLe query_upper) results).take max_results

/-- Rank of the name-match flag: name-matching entries rank `0`, others `1`. -/
def rankOf (qU : Str) (e : FileEntry) : Nat :=
  if nameMatch qU e then 0 else 1

theorem cmpBool_as_compare (a b : Bool) :
    cmpBool b a = compare (if a then 0 else 1) (if b then (0 : Nat) else 1) := by
  cases a <;> cases b <;> simp [cmpBool, compare, compareOfLessAndEq]

theorem entryLe_iff (qU : Str) (a b : FileEntry) :
    entryLe qU a b ↔
      (rankOf qU a < rankOf qU b ∨
        (rankOf qU a = rankOf qU b ∧ a.name.length ≤ b.name.length)) := by
  unfold entryLe entryCmp rankOf
  rw [cmpBool_as_compare]
  rcases nameMatch qU a <;> rcases nameMatch qU b <;>
    simp [Ordering.then, compare, compareOfLessAndEq] <;> omega

instance (qU : Str) : IsTotal FileEntry (entryLe qU) := by
  constructor
  intro a b
  rw [entryLe_iff, entryLe_iff]
  omega

instance (qU : Str) : IsTrans FileEntry (entryLe qU) := by
  constructor
  intro a b c hab hbc
  rw [entryLe_iff] at hab hbc ⊢
  omega

/-- Rust `str::rsplit_once('.')`: split at the last dot, `(before, after)`. -/
def splitLastDot : Str → Option (Str × Str)
  | [] => none
  | c :: cs =>
    match splitLastDot cs with
    | some (b, a) => some (c :: b, a)
    | none => if c = '.' then some ([], cs) else none

/-- A Windows path-separator character. -/
def isSepChar (c : Char) : Bool := c = '\\' || c = '/'

/-- The final path component (the part after the last separator). -/
def afterLastSep (s : Str) : Str :=
  (s.reverse.takeWhile (fun c => !isSepChar c)).reverse

/-- Model of the extension computation used at every entry-producing site:
`Path::new(p).extension().and_then(|s| s.to_str()).unwrap_or("").to_lowercase()`.
`Path::extension` looks only at the final component, splits it at its last
dot, and yields the part after the dot unless the part before it is empty. -/
def pathExtensionLower (p : Str) : Str :=
  match splitLastDot (afterLastSep p) with
  | none => []
  | some (before, after) => if before = [] then [] else lowerStr after

/-- The extension as worded by the specification claim: the lowercase
suffix of the name after the last dot, or empty if the name has no dot. -/
def claimedExtension (name : Str) : Str :=
  match splitLastDot name with
  | none => []
  | some (_, after) => lowerStr after

/-- `GLOBAL_CONFIG.local_max_cache` (`src/config.rs`): per-drive entry cap. -/
def local_max_cache : Nat := 100000

/-- Uppercased noise-subtree markers from `scan_ntfs_mft` / `scan_walkdir`. -/
def recycleUpper : Str := ("\\$RECYCLE.BIN").toList

def sysVolUpper : Str := ("\\SYSTEM VOLUME INFORMATION").toList

def windowsUpper : Str := ("C:\\WINDOWS").toList

def explorerUpper : Str := ("EXPLORER.EXE").toList

/-- A node of the filesystem as seen by the `walkdir` crate: name, kind,
metadata (`metaOk = false` models `entry.metadata()` returning `Err`),
children (empty for plain files).  Symbolic links are not modelled:
all scans set `follow_links(false)`. -/
inductive FsNode where
  | mk (name : Str) (is_dir : Bool) (size : Nat) (modified : Nat)
       (metaOk : Bool) (children : List FsNode)

def FsNode.name : FsNode → Str
  | .mk n _ _ _ _ _ => n

def FsNode.is_dir : FsNode → Bool
  | .mk _ d _ _ _ _ => d

def FsNode.size : FsNode → Nat
  | .mk _ _ s _ _ _ => s

def FsNode.modified : FsNode → Nat
  | .mk _ _ _ m _ _ => m

def FsNode.metaOk : FsNode → Bool
  | .mk _ _ _ _ o _ => o

def FsNode.children : FsNode → List FsNode
  | .mk _ _ _ _ _ c => c

/-- One item yielded by a `WalkDir` iteration. -/
structure WalkItem where
  name : Str
  path : Str
  is_dir : Bool
  size : Nat
  modified : Nat
  metaOk : Bool
deriving DecidableEq, Repr

/-- Join a parent path and a child name the way `walkdir` builds entry
paths (a `\` is inserted unless the parent already ends with one). -/
def joinPath (parent : Str) (name : Str) : Str :=
  if parent.getLast? = some '\\' then parent ++ name else parent ++ '\\' :: name

mutual

/-- Depth-first `WalkDir` enumeration of one node: the node itself, then
(if `depth` further generations are still allowed) its children. -/
def fsFlatten (n : FsNode) (parent : Str) (depth : Nat) : List WalkItem :=
  match n with
  | .mk name is_dir size modified metaOk children =>
    ⟨name, joinPath parent name, is_dir, size, modified, metaOk⟩ ::
      (match depth with
       | 0 => []
       | d + 1 => fsFlattenList children (joinPath parent name) d)

def fsFlattenList (ns : List FsNode) (parent : Str) (depth : Nat) : List WalkItem :=
  match ns with
  | [] => []
  | c :: cs => fsFlatten c parent depth ++ fsFlattenList cs parent depth

end

/-- `"{drive}:\\"`, the root passed to `WalkDir::new` in `scan_walkdir`. -/
def driveRootPath (drive : Char) : Str := [drive, ':', '\\']

/-- The per-item body of the `scan_walkdir` loop (`src/ntfs_search.rs`
lines 203-250): skip items whose uppercased path contains `C:\WINDOWS` or
`\$RECYCLE.BIN`, skip names that are empty or start with `$`, skip items
whose metadata read failed, otherwise push a `FileEntry`; `break` once the
accumulated entry count reaches `cap`. -/
def walkFold (cap : Nat) (drive : Char) : List WalkItem → List FileEntry → List FileEntry
  | [], acc => acc
  | it :: rest, acc =>
    if containsSub (upperStr it.path) windowsUpper ||
       containsSub (upperStr it.path) recycleUpper then
      walkFold cap drive rest acc
    else if (match it.name with | [] => true | c :: _ => c = '$') then
      walkFold cap drive rest acc
    else if it.metaOk = false then
      walkFold cap drive rest acc
    else
      let acc' := acc ++
        [⟨it.name, it.path, pathExtensionLower it.name, it.size, it.modified,
          it.is_dir, drive, 0⟩]
      if cap ≤ acc'.length then acc' else walkFold cap drive rest acc'

/-- The decoded NTFS volume structure as traversed by `scan_ntfs_mft`:
each node is one directory-index entry.  `openOk = false` models
`entry.to_file(&ntfs, &mut reader)` returning `Err` (the directory is then
not pushed for expansion); `indexOk = false` models
`dir.directory_index(&mut reader)` returning `Err` (the popped directory
then contributes nothing).  Entries whose name or key fails to decode are
skipped by the source loop and hence not represented. -/
inductive MftNode where
  | mk (name : Str) (is_dir : Bool) (openOk : Bool) (indexOk : Bool)
       (children : List MftNode)

def MftNode.name : MftNode → Str
  | .mk n _ _ _ _ => n

def MftNode.is_dir : MftNode → Bool
  | .mk _ d _ _ _ => d

def MftNode.openOk : MftNode → Bool
  | .mk _ _ o _ _ => o

def MftNode.indexOk : MftNode → Bool
  | .mk _ _ _ i _ => i

def MftNode.children : MftNode → List MftNode
  | .mk _ _ _ _ c => c

mutual

def mftSize : MftNode → Nat
  | .mk _ _ _ _ children => 1 + mftSizeList children

def mftSizeList : List MftNode → Nat
  | [] => 0
  | c :: cs => mftSize c + mftSizeList cs

end

/-- Total size of the nodes held on the explicit traversal stack. -/
def stackMeasure : List (MftNode × Str) → Nat
  | [] => 0
  | (n, _) :: t => mftSize n + stackMeasure t

/-- The inner `while let Some(entry_result) = iter.next(..)` loop of
`scan_ntfs_mft`, iterating the directory-index entries of one popped
directory: skip `.` and `..`, build `full_path`, apply the uppercased
noise-subtree exclusions, push a `FileEntry` (sizes and times zeroed),
push expandable subdirectories, and return early once `cap` entries have
accumulated.  Returns (entries, stack pushes in iteration order, whether
the cap-triggered `return` fired). -/
def mftChildren (cap : Nat) (drive : Char) (current_path : Str) :
    List MftNode → List FileEntry → List FileEntry × List (MftNode × Str) × Bool
  | [], acc => (acc, [], false)
  | c :: cs, acc =>
    if c.name = ['.'] || c.name = ['.', '.'] then
      mftChildren cap drive current_path cs acc
    else
      let full_path := current_path ++ '\\' :: c.name
      if containsSub (upperStr full_path) recycleUpper ||
         containsSub (upperStr full_path) sysVolUpper ||
         (containsSub (upperStr full_path) windowsUpper &&
           !containsSub (upperStr full_path) explorerUpper) then
        mftChildren cap drive current_path cs acc
      else
        let acc' := acc ++
          [⟨c.name, full_path, pathExtensionLower c.name, 0, 0, c.is_dir, drive, 0⟩]
        let pushed := if c.is_dir && c.openOk then [(c, full_path)] else []
        if cap ≤ acc'.length then (acc', pushed, true)
        else
          let r := mftChildren cap drive current_path cs acc'
          (r.1, pushed ++ r.2.1, r.2.2)

theorem mftSize_eq (d : MftNode) : mftSize d = 1 + mftSizeList d.children := by
  cases d
  rfl

theorem mftSize_pos (d : MftNode) : 1 ≤ mftSize d := by
  rw [mftSize_eq]
  omega

theorem stackMeasure_append (xs ys : List (MftNode × Str)) :
    stackMeasure (xs ++ ys) = stackMeasure xs + stackMeasure ys := by
  induction xs with
  | nil => simp [stackMeasure]
  | cons h t ih =>
    obtain ⟨n, p⟩ := h
    simp [stackMeasure, ih]
    omega

theorem stackMeasure_reverse (xs : List (MftNode × Str)) :
    stackMeasure xs.reverse = stackMeasure xs := by
  induction xs with
  | nil => rfl
  | cons h t ih =>
    obtain ⟨n, p⟩ := h
    simp [stackMeasure, List.reverse_cons, stackMeasure_append, ih]
    omega

theorem mftChildren_pushed_le (cap : Nat) (drive : Char) (p : Str)
    (cs : List MftNode) (acc : List FileEntry) :
    stackMeasure (mftChildren cap drive p cs acc).2.1 ≤ mftSizeList cs := by
  induction cs generalizing acc with
  | nil => simp [mftChildren, stackMeasure]
  | cons c rest ih =>
    simp only [mftChildren]
    have hsz : mftSize c + mftSizeList rest = mftSizeList (c :: rest) := rfl
    split
    · exact le_trans (ih acc) (by rw [← hsz]; omega)
    · split
      · exact le_trans (ih acc) (by rw [← hsz]; omega)
      · have hpush : ∀ fp : Str,
            stackMeasure (if c.is_dir && c.openOk then [(c, fp)] else []) ≤ mftSize c := by
          intro fp
          split
          · simp [stackMeasure]
          · simp only [stackMeasure]
            omega
        split
        · simpa using le_trans (hpush _) (by rw [← hsz]; omega)
        · simp only [stackMeasure_append]
          have h1 := hpush (p ++ '\\' :: c.name)
          have h2 := ih (acc ++
            [⟨c.name, p ++ '\\' :: c.name, pathExtensionLower c.name, 0, 0, c.is_dir, drive, 0⟩])
          rw [← hsz]
          omega

/-- The outer `while let Some((dir, current_path)) = stack.pop()` loop of
`scan_ntfs_mft`: pop a directory, read its index (a failure skips it),
process its entries, stack the subdirectories (the last push is popped
first), and stop wholesale when the inner loop hit the cap. -/
def mftLoop (cap : Nat) (drive : Char) :
    List (MftNode × Str) → List FileEntry → List FileEntry
  | [], acc => acc
  | (d, current_path) :: rest, acc =>
    if d.indexOk = false then mftLoop cap drive rest acc
    else
      let r := mftChildren cap drive current_path d.children acc
      if r.2.2 then r.1
      else mftLoop cap drive (r.2.1.reverse ++ rest) r.1
termination_by stack _ => stackMeasure stack
decreasing_by
  · simp only [stackMeasure]
    have := mftSize_pos d
    omega
  · simp only [stackMeasure, stackMeasure_append, stackMeasure_reverse]
    have h1 := mftChildren_pushed_le cap drive current_path d.children acc
    have h2 := mftSize_eq d
    omega

/-- Outcome of the `Ntfs::new(&mut reader)` call inside the
`std::panic::catch_unwind` fault boundary of `scan_ntfs_mft`
(`src/ntfs_search.rs` lines 127-130): a decoded volume, an ordinary
`Err`, or a panic raised while decoding. -/
inductive ParseOutcome where
  | ok
  | err
  | panicked
deriving DecidableEq, Repr

/-- Error values produced by the direct-read attempt (`anyhow` errors in
the source, distinguished here by the failing step). -/
inductive ScanError where
  | openFailed
  | parsePanicked
  | parseFailed
  | rootDirFailed
deriving DecidableEq, Repr

/-- The environment one drive presents to the scanner: the outcome of
each fallible low-level step of the direct read, the decoded volume
structure, and the drive as seen by the fallback directory walk. -/
structure DriveEnv where
  /-- `OpenOptions::open(\\.\X:)` succeeds. -/
  openOk : Bool
  /-- Outcome of `Ntfs::new` inside `catch_unwind`. -/
  parse : ParseOutcome
  /-- `ntfs.root_directory(&mut reader)` succeeds (a failure propagates via the source's question-mark operator). -/
  rootDirOk : Bool
  /-- The volume's decoded root directory (its own name is never emitted). -/
  mftRoot : MftNode
  /-- The drive root's children as enumerated by `WalkDir`. -/
  fsChildren : List FsNode
  /-- Metadata of the drive root itself (the first `WalkDir` item). -/
  rootMetaOk : Bool
  rootSize : Nat
  rootModified : Nat

/-- `LocalNtfsSearcher::scan_ntfs_mft` (`src/ntfs_search.rs` lines
115-201): open the volume device, parse it inside the panic fault
boundary (a panic or an `Err` becomes an ordinary error return), read the
root directory, then run the explicit-stack traversal seeded with
`(root, "{drive}:")`. -/
def scan_ntfs_mft (drive : Char) (env : DriveEnv) : Except ScanError (List FileEntry) :=
  if env.openOk = false then .error .openFailed
  else
    match env.parse with
    | .panicked => .error .parsePanicked
    | .err => .error .parseFailed
    | .ok =>
      if env.rootDirOk = false then .error .rootDirFailed
      else .ok (mftLoop local_max_cache drive [(env.mftRoot, [drive, ':'])] [])

/-- The `WalkDir` item sequence for one drive: the root `"{drive}:\\"`
itself (depth 0), then its subtree up to `max_depth(20)`. -/
def walkItemsOfDrive (drive : Char) (env : DriveEnv) : List WalkItem :=
  ⟨driveRootPath drive, driveRootPath drive, true, env.rootSize, env.rootModified,
    env.rootMetaOk⟩ :: fsFlattenList env.fsChildren (driveRootPath drive) 19

/-- `LocalNtfsSearcher::scan_walkdir` (`src/ntfs_search.rs` lines
203-250): bounded-depth walk from `"{drive}:\\"`; never returns an error
(unreadable items are dropped by `filter_map(|e| e.ok())`). -/
def scan_walkdir (drive : Char) (env : DriveEnv) : Except ScanError (List FileEntry) :=
  .ok (walkFold local_max_cache drive (walkItemsOfDrive drive env) [])

/-- `LocalNtfsSearcher::scan_drive` (`src/ntfs_search.rs` lines 93-112):
an elevated process first attempts the direct metadata read and falls
back to the walk when it fails or yields nothing; an unprivileged
process goes straight to the walk. -/
def scan_drive (is_admin : Bool) (drive : Char) (env : DriveEnv) :
    Except ScanError (List FileEntry) :=
  if is_admin then
    match scan_ntfs_mft drive env with
    | .ok entries => if !entries.isEmpty then .ok entries else scan_walkdir drive env
    | .error _ => scan_walkdir drive env
  else scan_walkdir drive env

/-- The per-drive loop of `load_all_drives` (`src/ntfs_search.rs` lines
61-72): scan each drive in turn, extending the aggregate on success and
merely logging (skipping) on failure. -/
def aggregateScans (is_admin : Bool) (drives : List (Char × DriveEnv)) :
    List FileEntry :=
  match drives with
  | [] => []
  | (d, env) :: rest =>
    match scan_drive is_admin d env with
    | .ok entries => entries ++ aggregateScans is_admin rest
    | .error _ => aggregateScans is_admin rest

/-- A value stored in the persisted `redb` table: either bytes that
deserialize to a `FileEntry` (serde round-trips the derived record
faithfully) or bytes that `serde_json::from_slice` rejects. -/
inductive CacheValue where
  | entry (e : FileEntry)
  | corrupt
deriving DecidableEq, Repr

/-- `serde_json::from_slice::<FileEntry>` on a stored value. -/
def decodeValue : CacheValue → Option FileEntry
  | .entry e => some e
  | .corrupt => none

/-- The persisted key-value table, keyed by path bytes.  `redb` iterates
keys in byte order; no modelled claim depends on iteration order, so the
table is modelled as a key-unique association list. -/
abbrev CacheTable := List (Str × CacheValue)

/-- `table.insert(key, value)`: replace the value under an existing key,
otherwise add the pair. -/
def tableInsert (t : CacheTable) (k : Str) (v : CacheValue) : CacheTable :=
  match t with
  | [] => [(k, v)]
  | (k', v') :: rest => if k' = k then (k, v) :: rest else (k', v') :: tableInsert rest k v

/-- `LocalNtfsSearcher::save_to_cache` (`src/ntfs_search.rs` lines
319-333): insert every index entry under its path bytes. -/
def save_to_cache (t : CacheTable) (index : List FileEntry) : CacheTable :=
  index.foldl (fun acc e => tableInsert acc e.path (.entry e)) t

/-- The entries a table iteration decodes (`for (_, v) in iter.flatten()`
with `if let Ok(entry) = serde_json::from_slice(..)`). -/
def cacheEntriesOf (rows : CacheTable) : List FileEntry :=
  rows.filterMap (fun r => decodeValue r.2)

/-- `LocalNtfsSearcher::load_from_cache` (`src/ntfs_search.rs` lines
252-275).  `db = none` covers an absent database as well as a failing
read transaction or table open (each aborts via the source's
question-mark-style early return of `None`).  A non-empty decoded entry
set is installed and its count returned; otherwise `None`. -/
def load_from_cache (db : Option CacheTable) : Option (List FileEntry) :=
  match db with
  | none => none
  | some rows =>
    let entries := cacheEntriesOf rows
    if 0 < entries.length then some entries else none

/-- Observable outcome of `load_all_drives`: the returned count, the
installed in-memory index, the readiness flag, the drives the scan loop
visited, and whether a snapshot save was attempted. -/
structure LoadResult where
  count : Nat
  index : List FileEntry
  ready : Bool
  scannedDrives : List Char
  savedToCache : Bool
deriving DecidableEq, Repr

/-- `LocalNtfsSearcher::load_all_drives` (`src/ntfs_search.rs` lines
44-91): a non-empty cache load short-circuits to Ready; otherwise every
drive is scanned, the aggregate installed, Ready set, and a save
attempted when anything was found. -/
def load_all_drives (db : Option CacheTable) (is_admin : Bool)
    (drives : List (Char × DriveEnv)) : LoadResult :=
  match load_from_cache db with
  | some entries =>
    if 0 < entries.length then
      { count := entries.length, index := entries, ready := true,
        scannedDrives := [], savedToCache := false }
    else
      let all := aggregateScans is_admin drives
      { count := all.length, index := all, ready := true,
        scannedDrives := drives.map (fun p => p.1),
        savedToCache := 0 < all.length }
  | none =>
    let all := aggregateScans is_admin drives
    { count := all.length, index := all, ready := true,
      scannedDrives := drives.map (fun p => p.1),
      savedToCache := 0 < all.length }

/-- `src/types.rs`, `SearchRequest`. -/
structure SearchRequest where
  query : Str
  limit : Nat
  max_results : Nat
  scope : Option Str
  extensions : Option (List Str)
deriving DecidableEq, Repr

/-- `src/types.rs`, `SearchResponse` (`SearchResultItem` is an alias of
`FileEntry`). -/
structure SearchResponse where
  results : List FileEntry
  total : Nat
  success : Bool
  elapsed_ms : Nat
  total_count : Nat
  error : Option Str
deriving DecidableEq, Repr

/-- The successful-decode arm of `handle_client` (`src/service.rs` lines
139-163): run the query against the index with `request.max_results`,
re-emit every result with `score: 1.0`, and answer with `success: true`,
`total_count` the result count and `total: 0`. -/
def handleDecodedRequest (req : SearchRequest) (index : List FileEntry)
    (elapsed : Nat) : SearchResponse :=
  let result_items := (search index req.query req.max_results).map
    (fun e => { e with score := 1 })
  { success := true, elapsed_ms := elapsed, total_count := result_items.length,
    results := result_items, total := 0, error := none }

/-- `handle_client` (`src/service.rs` lines 131-183) after the request
buffer was read: `decoded = none` models `serde_json::from_slice`
rejecting the payload. -/
def handle_client (decoded : Option SearchRequest) (index : List FileEntry)
    (elapsed : Nat) (errText : Str) : SearchResponse :=
  match decoded with
  | some request => handleDecodedRequest request index elapsed
  | none =>
    { success := false, elapsed_ms := 0, total_count := 0, results := [],
      total := 0, error := some errText }

/-- A channel operation the client performs, and the bounded wait (if
any) wrapped around it. -/
inductive OpKind where
  | connect
  | write
  | read
deriving DecidableEq, Repr

structure TransportOp where
  kind : OpKind
  timeoutMs : Option Nat
deriving DecidableEq, Repr

/-- The transport operations `client_request` performs, in order
(`src/ipc.rs` lines 8-20): `ClientOptions::new().open(PIPE_NAME)`,
`client.write_all(&request_data).await`, `client.read(&mut
response_data).await`.  None of the three is wrapped in any timeout
combinator. -/
def client_request_ops : List TransportOp :=
  [⟨.connect, none⟩, ⟨.write, none⟩, ⟨.read, none⟩]

/-- The claim under test for the transport boundary: every read and
write `client_request` performs applies a bounded wait. -/
def clientBoundedWaitClaim : Prop :=
  ∀ op ∈ client_request_ops,
    (op.kind = OpKind.write ∨ op.kind = OpKind.read) → op.timeoutMs ≠ none

instance : Decidable clientBoundedWaitClaim := by
  unfold clientBoundedWaitClaim
  infer_instance

/-- The conversion applied in `run_cli` to each item of a successful IPC
response (`src/cli.rs` lines 58-67): fields copied, `drive` blanked,
`score` zeroed. -/
def convertItem (r : FileEntry) : FileEntry :=
  { name := r.name, path := r.path, extension := r.extension, size := r.size,
    modified := r.modified, is_dir := r.is_dir, drive := ' ', score := 0 }

/-- Error raised by `client_request`: any failure at connect, write,
read, or response decode (all surfaced through the same `anyhow` result). -/
inductive IpcError where
  | connectFailed
  | writeFailed
  | readFailed
  | decodeFailed
deriving DecidableEq, Repr

/-- The filename-search, empty-scope branch of `run_cli` (`src/cli.rs`
lines 47-76): a successful IPC round-trip maps the response (empty on
`success = false`); any transport failure falls back to constructing a
local `LocalNtfsSearcher`, forcing `load_all_drives`, and searching the
loaded index.  The branch always produces a result list — `run_cli`
returns `Ok` around it. -/
def runCliFilename (ipc : Except IpcError SearchResponse)
    (db : Option CacheTable) (is_admin : Bool)
    (drives : List (Char × DriveEnv)) (query : Str) (max_results : Nat) :
    Except IpcError (List FileEntry) :=
  match ipc with
  | .ok response =>
    if response.success then .ok (response.results.map convertItem)
    else .ok []
  | .error _ =>
    .ok (search (load_all_drives db is_admin drives).index query max_results)

/-- Scenario entries from the specification: an index containing
`report.PDF`, `reports/old.txt` and `notes.txt`. -/
def entReport : FileEntry :=
  { name := ("report.PDF").toList, path := ("report.PDF").toList,
    extension := ("pdf").toList, size := 10, modified := 0, is_dir := false,
    drive := 'C', score := 0 }

def entOld : FileEntry :=
  { name := ("old.txt").toList, path := ("reports/old.txt").toList,
    extension := ("txt").toList, size := 20, modified := 0, is_dir := false,
    drive := 'C', score := 0 }

def entNotes : FileEntry :=
  { name := ("notes.txt").toList, path := ("notes.txt").toList,
    extension := ("txt").toList, size := 30, modified := 0, is_dir := false,
    drive := 'C', score := 0 }

def scenarioIndex : List FileEntry := [entReport, entOld, entNotes]

/-- A drive environment whose direct metadata read fails at the
`Ntfs::new` step with an ordinary error. -/
def envMftFails : DriveEnv :=
  { openOk := true, parse := .err, rootDirOk := true,
    mftRoot := .mk [] true true true [],
    fsChildren := [.mk (("a.txt").toList) false 3 5 true []],
    rootMetaOk := true, rootSize := 0, rootModified := 0 }

/-- A drive environment whose volume parse panics. -/
def envMftPanics : DriveEnv :=
  { openOk := true, parse := .panicked, rootDirOk := true,
    mftRoot := .mk [] true true true [],
    fsChildren := [.mk (("b.txt").toList) false 3 5 true []],
    rootMetaOk := true, rootSize := 0, rootModified := 0 }

/-- A concrete cached entry and a one-row persisted table. -/
def cachedEntry : FileEntry :=
  { name := ("a.txt").toList, path := ("C:\\a.txt").toList,
    extension := ("txt").toList, size := 1, modified := 2, is_dir := false,
    drive := 'C', score := 0 }

def dbOneRow : Option CacheTable :=
  some [((("C:\\a.txt").toList), CacheValue.entry cachedEntry)]

def rtEntryA : FileEntry :=
  { name := ("a.txt").toList, path := ("C:\\a.txt").toList,
    extension := ("txt").toList, size := 7, modified := 8, is_dir := false,
    drive := 'C', score := 0 }

def rtEntryB : FileEntry :=
  { name := ("b").toList, path := ("C:\\d\\b").toList, extension := [],
    size := 9, modified := 1, is_dir := true, drive := 'C', score := 0 }

def wReq : SearchRequest :=
  { query := ("a").toList, limit := 5, max_results := 5, scope := none,
    extensions := none }

/-- A stored entry carrying a non-trivial transient score. -/
def wStored : FileEntry :=
  { name := ("a.txt").toList, path := ("C:\\a.txt").toList,
    extension := ("txt").toList, size := 4, modified := 9, is_dir := false,
    drive := 'C', score := 7 }

def wScored : FileEntry :=
  { name := ("a.txt").toList, path := ("C:\\a.txt").toList,
    extension := ("txt").toList, size := 4, modified := 9, is_dir := false,
    drive := 'C', score := 1 }

/-- The extension rule the code actually implements, phrased on the bare
file name (`Path::extension` semantics followed by `to_lowercase`): the
lowercase part after the last dot, or empty when the name has no dot or
the part before the last dot is empty (hidden dot-files). -/
def rustNameExtension (name : Str) : Str :=
  match splitLastDot name with
  | none => []
  | some (before, after) => if before = [] then [] else lowerStr after

mutual

/-- Every name in the tree is free of path separators (true of any name
a real filesystem can hand to `walkdir`). -/
def fsNamesSepFree : FsNode → Bool
  | .mk name _ _ _ _ children =>
    name.all (fun c => !isSepChar c) && fsNamesSepFreeList children

def fsNamesSepFreeList : List FsNode → Bool
  | [] => true
  | c :: cs => fsNamesSepFree c && fsNamesSepFreeList cs

end

mutual

/-- Every name in the decoded volume structure is separator-free (true
of any name NTFS can store). -/
def mftNamesSepFree : MftNode → Bool
  | .mk name _ _ _ children =>
    name.all (fun c => !isSepChar c) && mftNamesSepFreeList children

def mftNamesSepFreeList : List MftNode → Bool
  | [] => true
  | c :: cs => mftNamesSepFree c && mftNamesSepFreeList cs

end

mutual

/-- The depth-unbounded `WalkDir` enumeration used by `Indexer::scan_all`
(`src/indexer.rs`), which sets no `max_depth`. -/
def indexerFlatten (n : FsNode) (parent : Str) : List WalkItem :=
  match n with
  | .mk name is_dir size modified metaOk children =>
    ⟨name, joinPath parent name, is_dir, size, modified, metaOk⟩ ::
      indexerFlattenList children (joinPath parent name)

def indexerFlattenList (ns : List FsNode) (parent : Str) : List WalkItem :=
  match ns with
  | [] => []
  | c :: cs => indexerFlatten c parent ++ indexerFlattenList cs parent

end

/-- The per-item body of `Indexer::scan_all`'s walk (`src/indexer.rs`
lines 29-66): skip paths containing `$RECYCLE.BIN` or `System Volume
Information` (case-sensitive), otherwise push an entry whose extension
comes from the full path and whose size/modified fall back to zero when
the metadata read failed.  No entry cap and no name filter. -/
def indexerFold (drive : Char) : List WalkItem → List FileEntry
  | [] => []
  | it :: rest =>
    if containsSub it.path (("$RECYCLE.BIN").toList) ||
       containsSub it.path (("System Volume Information").toList) then
      indexerFold drive rest
    else
      ⟨it.name, it.path, pathExtensionLower it.path,
        (if it.metaOk then it.size else 0), (if it.metaOk then it.modified else 0),
        it.is_dir, drive, 0⟩ :: indexerFold drive rest

/-- One drive's contribution to `Indexer::scan_all`: walk `"{drive}:\\"`
without a depth bound and fold the items. -/
def indexer_scan_drive (drive : Char) (rootMetaOk : Bool)
    (rootSize rootModified : Nat) (children : List FsNode) : List FileEntry :=
  indexerFold drive
    (⟨driveRootPath drive, driveRootPath drive, true, rootSize, rootModified,
      rootMetaOk⟩ :: indexerFlattenList children (driveRootPath drive))

/-- The loop of `search_custom_path` (`src/custom_path.rs` lines 14-59):
stop once `max_results` entries are collected, skip items whose metadata
read failed, and keep items whose lowercased name or path contains the
lowercased query; the extension again comes from the full path. -/
def customFold (max_results : Nat) (query_lower : Str) :
    List WalkItem → List FileEntry → List FileEntry
  | [], results => results
  | it :: rest, results =>
    if max_results ≤ results.length then results
    else if it.metaOk = false then customFold max_results query_lower rest results
    else if containsSub (lowerStr it.name) query_lower ||
            containsSub (lowerStr it.path) query_lower then
      customFold max_results query_lower rest (results ++
        [⟨it.name, it.path, pathExtensionLower it.path, it.size, it.modified,
          it.is_dir, ' ', 0⟩])
    else customFold max_results query_lower rest results

/-- `search_custom_path` (`src/custom_path.rs`): walk the user-supplied
scope with `max_depth(10)`; the root item carries the scope path itself
and its final component as name. -/
def search_custom_path (query : Str) (scope : Str) (rootName : Str)
    (rootIsDir : Bool) (rootMetaOk : Bool) (rootSize rootModified : Nat)
    (children : List FsNode) (max_results : Nat) : List FileEntry :=
  customFold max_results (lowerStr query)
    (⟨rootName, scope, rootIsDir, rootSize, rootModified, rootMetaOk⟩ ::
      fsFlattenList children scope 9) []

instance {ε α : Type} [DecidableEq ε] [DecidableEq α] : DecidableEq (Except ε α)
  | .ok a, .ok b =>
    if h : a = b then isTrue (by rw [h])
    else isFalse (by intro hc; cases hc; exact h rfl)
  | .ok _, .error _ => isFalse (by intro h; cases h)
  | .error _, .ok _ => isFalse (by intro h; cases h)
  | .error a, .error b =>
    if h : a = b then isTrue (by rw [h])
    else isFalse (by intro hc; cases hc; exact h rfl)

/-- A drive whose walk meets a hidden dot-file. -/
def envGitignore : DriveEnv :=
  { openOk := true, parse := .ok, rootDirOk := true,
    mftRoot := .mk [] true true true [],
    fsChildren := [.mk ((".gitignore").toList) false 5 6 true []],
    rootMetaOk := true, rootSize := 0, rootModified := 0 }

/-- The entry the drive walk produces for `.gitignore`: its stored
extension is empty. -/
def gitignoreEntry : FileEntry :=
  { name := (".gitignore").toList, path := ("D:\\.gitignore").toList,
    extension := [], size := 5, modified := 6, is_dir := false, drive := 'D',
    score := 0 }

/-- A drive whose unbounded indexer walk meets a double-extension file. -/
def envTarGz : List FsNode := [.mk (("b.tar.gz").toList) false 4 0 true []]

theorem entryLe_ranking (qU : Str) (a b : FileEntry) (h : entryLe qU a b) :
    (nameMatch qU a = false → nameMatch qU b = false) ∧
    (nameMatch qU a = nameMatch qU b → a.name.length ≤ b.name.length) := by
  rw [entryLe_iff] at h
  unfold rankOf at h
  cases ha : nameMatch qU a <;> cases hb : nameMatch qU b <;>
    simp [ha, hb] at h ⊢ <;> omega

/-- C1: for every non-empty query `Q` and limit `N`, `search(Q, N)`
returns at most `N` entries, every returned entry matches `Q`
case-insensitively on name or path, and every returned entry was drawn
from the first `N * 5` matching candidates gathered before ranking. -/
theorem search_bounded_and_matching (index : List FileEntry) (q : Str) (n : Nat)
    (hq : q ≠ []) :
    (search index q n).length ≤ n ∧
    ∀ e ∈ search index q n,
      matchesQuery (upperStr q) e = true ∧
      e ∈ (index.filter (fun x => matchesQuery (upperStr q) x)).take (n * 5) := by
  unfold search
  rw [if_neg hq]
  refine ⟨List.length_take_le n _, ?_⟩
  intro e he
  have h1 : e ∈ List.insertionSort (entryLe (upperStr q))
      ((index.filter (fun x => matchesQuery (upperStr q) x)).take (n * 5)) :=
    List.mem_of_mem_take he
  have h2 : e ∈ (index.filter (fun x => matchesQuery (upperStr q) x)).take (n * 5) :=
    (List.mem_insertionSort (entryLe (upperStr q))).1 h1
  exact ⟨(List.mem_filter.1 (List.mem_of_mem_take h2)).2, h2⟩

/-- C2: within one result set for a non-empty query, every name-matching
entry is ordered before every path-only match, and entries of equal
match class are ordered by nondecreasing name length; in the spec's
scenario, `search("report", 10)` returns `report.PDF` before
`reports/old.txt`. -/
theorem search_ranks_name_matches_first (index : List FileEntry) (q : Str)
    (n : Nat) (hq : q ≠ []) :
    (search index q n).Pairwise (fun a b =>
      (nameMatch (upperStr q) a = false → nameMatch (upperStr q) b = false) ∧
      (nameMatch (upperStr q) a = nameMatch (upperStr q) b →
        a.name.length ≤ b.name.length)) ∧
    search scenarioIndex (("report").toList) 10 = [entReport, entOld] := by
  constructor
  · unfold search
    rw [if_neg hq]
    have hs : (List.insertionSort (entryLe (upperStr q))
        ((index.filter (fun x => matchesQuery (upperStr q) x)).take (n * 5))).Pairwise
          (entryLe (upperStr q)) :=
      List.sorted_insertionSort (entryLe (upperStr q)) _
    have ht := hs.sublist (List.take_sublist n _)
    exact ht.imp (fun hab => entryLe_ranking _ _ _ hab)
  · decide

theorem search_bounded_and_matching_witness :
    (search scenarioIndex (("report").toList) 1).length ≤ 1 ∧
    ∀ e ∈ search scenarioIndex (("report").toList) 1,
      matchesQuery (upperStr (("report").toList)) e = true ∧
      e ∈ (scenarioIndex.filter
        (fun x => matchesQuery (upperStr (("report").toList)) x)).take (1 * 5) :=
  search_bounded_and_matching scenarioIndex (("report").toList) 1 (by decide)

theorem search_ranks_name_matches_first_witness :
    (search scenarioIndex (("report").toList) 10).Pairwise (fun a b =>
      (nameMatch (upperStr (("report").toList)) a = false →
        nameMatch (upperStr (("report").toList)) b = false) ∧
      (nameMatch (upperStr (("report").toList)) a =
          nameMatch (upperStr (("report").toList)) b →
        a.name.length ≤ b.name.length)) ∧
    search scenarioIndex (("report").toList) 10 = [entReport, entOld] :=
  search_ranks_name_matches_first scenarioIndex (("report").toList) 10 (by decide)

theorem aggregateScans_append (a : Bool) (xs ys : List (Char × DriveEnv)) :
    aggregateScans a (xs ++ ys) = aggregateScans a xs ++ aggregateScans a ys := by
  induction xs with
  | nil => simp [aggregateScans]
  | cons h t ih =>
    obtain ⟨d, env⟩ := h
    simp only [List.cons_append, aggregateScans]
    split <;> simp [ih]

theorem scan_drive_of_mft_error (is_admin : Bool) (d : Char) (env : DriveEnv)
    (e : ScanError) (h : scan_ntfs_mft d env = .error e) :
    scan_drive is_admin d env = scan_walkdir d env := by
  cases is_admin with
  | false => rfl
  | true =>
    unfold scan_drive
    rw [h]
    simp

/-- C3: an unprivileged process always scans with the directory walk; a
privileged process falls back to the walk for any drive whose direct
metadata read fails; and such a failure leaves the aggregation over the
remaining drives intact (the failed drive contributes its walk entries,
every other drive is still processed). -/
theorem scan_strategy_selection :
    (∀ (d : Char) (env : DriveEnv), scan_drive false d env = scan_walkdir d env) ∧
    (∀ (d : Char) (env : DriveEnv) (e : ScanError),
      scan_ntfs_mft d env = .error e →
      scan_drive true d env = scan_walkdir d env) ∧
    (∀ (is_admin : Bool) (pre post : List (Char × DriveEnv)) (d : Char)
        (env : DriveEnv) (e : ScanError),
      scan_ntfs_mft d env = .error e →
      aggregateScans is_admin (pre ++ (d, env) :: post) =
        aggregateScans is_admin pre ++
          walkFold local_max_cache d (walkItemsOfDrive d env) [] ++
          aggregateScans is_admin post) := by
  refine ⟨fun d env => rfl, fun d env e h => scan_drive_of_mft_error true d env e h, ?_⟩
  intro is_admin pre post d env e h
  rw [aggregateScans_append]
  have hmid : aggregateScans is_admin ((d, env) :: post) =
      walkFold local_max_cache d (walkItemsOfDrive d env) [] ++
        aggregateScans is_admin post := by
    have h2 := scan_drive_of_mft_error is_admin d env e h
    simp only [aggregateScans, h2, scan_walkdir]
  rw [hmid, List.append_assoc]

theorem scan_strategy_selection_witness :
    scan_drive false 'C' envMftFails = scan_walkdir 'C' envMftFails ∧
    scan_drive true 'C' envMftFails = scan_walkdir 'C' envMftFails ∧
    aggregateScans true ([] ++ ('C', envMftFails) :: []) =
      aggregateScans true [] ++
        walkFold local_max_cache 'C' (walkItemsOfDrive 'C' envMftFails) [] ++
        aggregateScans true [] :=
  ⟨scan_strategy_selection.1 'C' envMftFails,
   scan_strategy_selection.2.1 'C' envMftFails .parseFailed rfl,
   scan_strategy_selection.2.2 true [] [] 'C' envMftFails .parseFailed rfl⟩

/-- C4: a panic raised by the volume-metadata parse (`Ntfs::new` inside
`catch_unwind`) becomes an ordinary error return of the direct-read
attempt, and the drive is then scanned with the directory walk instead —
the fault never propagates out of `scan_drive`. -/
theorem mft_parse_panic_contained (d : Char) (env : DriveEnv)
    (hopen : env.openOk = true) (hp : env.parse = ParseOutcome.panicked) :
    scan_ntfs_mft d env = .error ScanError.parsePanicked ∧
    scan_drive true d env = scan_walkdir d env := by
  have h1 : scan_ntfs_mft d env = .error ScanError.parsePanicked := by
    unfold scan_ntfs_mft
    rw [hopen, hp]
    simp
  exact ⟨h1, scan_drive_of_mft_error true d env _ h1⟩

theorem mft_parse_panic_contained_witness :
    scan_ntfs_mft 'C' envMftPanics = .error ScanError.parsePanicked ∧
    scan_drive true 'C' envMftPanics = scan_walkdir 'C' envMftPanics :=
  mft_parse_panic_contained 'C' envMftPanics (by decide) (by decide)

/-- C5: when the persisted cache loads as a non-empty entry set,
`load_all_drives` marks the service ready and returns that set's count
with no drive scanned and no save attempted. -/
theorem cache_hit_short_circuits (db : Option CacheTable) (is_admin : Bool)
    (drives : List (Char × DriveEnv)) (entries : List FileEntry)
    (h : load_from_cache db = some entries) :
    entries ≠ [] ∧
    load_all_drives db is_admin drives =
      { count := entries.length, index := entries, ready := true,
        scannedDrives := [], savedToCache := false } := by
  have hpos : 0 < entries.length := by
    unfold load_from_cache at h
    cases db with
    | none => cases h
    | some rows =>
      simp only at h
      by_cases hl : 0 < (cacheEntriesOf rows).length
      · rw [if_pos hl] at h
        cases h
        exact hl
      · rw [if_neg hl] at h
        cases h
  refine ⟨by intro hnil; rw [hnil] at hpos; simp at hpos, ?_⟩
  unfold load_all_drives
  rw [h]
  simp [hpos]

theorem cache_hit_short_circuits_witness :
    [cachedEntry] ≠ [] ∧
    load_all_drives dbOneRow true [('C', envMftFails)] =
      { count := [cachedEntry].length, index := [cachedEntry], ready := true,
        scannedDrives := [], savedToCache := false } :=
  cache_hit_short_circuits dbOneRow true [('C', envMftFails)] [cachedEntry] (by decide)

theorem tableInsert_of_not_mem (t : CacheTable) (k : Str) (v : CacheValue)
    (h : ∀ r ∈ t, r.1 ≠ k) : tableInsert t k v = t ++ [(k, v)] := by
  induction t with
  | nil => rfl
  | cons r rest ih =>
    obtain ⟨k', v'⟩ := r
    have hk : k' ≠ k := h (k', v') (by simp)
    simp only [tableInsert, if_neg hk, List.cons_append]
    rw [ih (fun r hr => h r (by simp [hr]))]

theorem save_to_cache_fresh (index : List FileEntry) (t : CacheTable)
    (hd : ∀ e ∈ index, ∀ r ∈ t, r.1 ≠ e.path)
    (hn : (index.map FileEntry.path).Nodup) :
    save_to_cache t index = t ++ index.map (fun e => (e.path, CacheValue.entry e)) := by
  induction index generalizing t with
  | nil => simp [save_to_cache]
  | cons e rest ih =>
    have hstep : save_to_cache t (e :: rest) =
        save_to_cache (tableInsert t e.path (.entry e)) rest := rfl
    rw [hstep, tableInsert_of_not_mem t e.path (.entry e) (fun r hr => hd e (by simp) r hr)]
    have hn' : (rest.map FileEntry.path).Nodup := (List.nodup_cons.1 hn).2
    have hnotin : e.path ∉ rest.map FileEntry.path := (List.nodup_cons.1 hn).1
    rw [ih (t ++ [(e.path, CacheValue.entry e)]) ?_ hn']
    · simp
    · intro e2 he2 r hr
      rcases List.mem_append.1 hr with hr1 | hr2
      · exact hd e2 (by simp [he2]) r hr1
      · simp only [List.mem_singleton] at hr2
        rw [hr2]
        intro hcontra
        have hcontra2 : e.path = e2.path := hcontra
        apply hnotin
        rw [hcontra2]
        exact List.mem_map_of_mem FileEntry.path he2

theorem filterMap_decode_map (l : List FileEntry) :
    List.filterMap (fun r => decodeValue r.2)
      (l.map (fun e => (e.path, CacheValue.entry e))) = l := by
  induction l with
  | nil => rfl
  | cons e rest ih =>
    show e :: List.filterMap (fun r => decodeValue r.2)
        (rest.map (fun e => (e.path, CacheValue.entry e))) = e :: rest
    rw [ih]

theorem cacheEntriesOf_save (index : List FileEntry)
    (hn : (index.map FileEntry.path).Nodup) :
    cacheEntriesOf (save_to_cache [] index) = index := by
  rw [show cacheEntriesOf (save_to_cache [] index) =
      (save_to_cache [] index).filterMap (fun r => decodeValue r.2) from rfl]
  rw [save_to_cache_fresh index [] (by simp) hn]
  simp only [List.nil_append]
  exact filterMap_decode_map index

/-- C6: persisting an index of entries with pairwise-distinct paths into
an empty table and reloading it yields exactly as many entries, each
carrying the persisted path, name, size and is-directory fields; a
non-empty index makes `load_from_cache` accept the reloaded set. -/
theorem cache_round_trip (index : List FileEntry)
    (hn : (index.map FileEntry.path).Nodup) :
    (cacheEntriesOf (save_to_cache [] index)).length = index.length ∧
    (∀ e ∈ index, ∃ e2 ∈ cacheEntriesOf (save_to_cache [] index),
      e2.path = e.path ∧ e2.name = e.name ∧ e2.size = e.size ∧
      e2.is_dir = e.is_dir) ∧
    (index ≠ [] →
      load_from_cache (some (save_to_cache [] index)) =
        some (cacheEntriesOf (save_to_cache [] index))) := by
  have hmain := cacheEntriesOf_save index hn
  refine ⟨by rw [hmain], ?_, ?_⟩
  · intro e he
    exact ⟨e, by rw [hmain]; exact he, rfl, rfl, rfl, rfl⟩
  · intro hne
    have hlen : 0 < (cacheEntriesOf (save_to_cache [] index)).length := by
      rw [hmain]
      exact List.length_pos.2 hne
    show (if 0 < (cacheEntriesOf (save_to_cache [] index)).length then
        some (cacheEntriesOf (save_to_cache [] index)) else none) =
      some (cacheEntriesOf (save_to_cache [] index))
    rw [if_pos hlen]

theorem cache_round_trip_witness :
    (cacheEntriesOf (save_to_cache [] [rtEntryA, rtEntryB])).length =
      [rtEntryA, rtEntryB].length ∧
    (∀ e ∈ [rtEntryA, rtEntryB],
      ∃ e2 ∈ cacheEntriesOf (save_to_cache [] [rtEntryA, rtEntryB]),
        e2.path = e.path ∧ e2.name = e.name ∧ e2.size = e.size ∧
        e2.is_dir = e.is_dir) ∧
    ([rtEntryA, rtEntryB] ≠ [] →
      load_from_cache (some (save_to_cache [] [rtEntryA, rtEntryB])) =
        some (cacheEntriesOf (save_to_cache [] [rtEntryA, rtEntryB]))) :=
  cache_round_trip [rtEntryA, rtEntryB] (by decide)

/-- C7: when `client_request` fails at any stage, the CLI filename
branch still returns an `Ok` result list (never an error), produced by
building an in-process searcher, forcing a synchronous
`load_all_drives`, and answering the query against the loaded index. -/
theorem cli_transport_fallback (err : IpcError) (db : Option CacheTable)
    (is_admin : Bool) (drives : List (Char × DriveEnv)) (q : Str) (n : Nat) :
    runCliFilename (.error err) db is_admin drives q n =
      .ok (search (load_all_drives db is_admin drives).index q n) := rfl

/-- C9 counterexample: it is false that every read and write
`client_request` performs applies a bounded wait — none of its transport
operations carries any timeout. -/
theorem client_bounded_wait_refuted : ¬ clientBoundedWaitClaim := by decide

/-- C9 amended: no transport operation of `client_request` — connect,
write or read — applies any bounded wait, so a stalled server can block
the client indefinitely. -/
theorem client_ops_unbounded : ∀ op ∈ client_request_ops, op.timeoutMs = none := by
  decide

theorem client_ops_unbounded_witness :
    (TransportOp.mk OpKind.read none).timeoutMs = none :=
  client_ops_unbounded (TransportOp.mk OpKind.read none) (by decide)

/-- C10: for every request the server decodes, the response has
`success = true` and `total = 0`, and every result entry carries score
exactly 1, irrespective of the scores stored in the index. -/
theorem server_overwrites_score (req : SearchRequest) (index : List FileEntry)
    (elapsed : Nat) (errText : Str) :
    (handle_client (some req) index elapsed errText).success = true ∧
    (handle_client (some req) index elapsed errText).total = 0 ∧
    ∀ r ∈ (handle_client (some req) index elapsed errText).results, r.score = 1 := by
  refine ⟨rfl, rfl, ?_⟩
  intro r hr
  have hr2 : r ∈ (search index req.query req.max_results).map
      (fun e => { e with score := 1 }) := hr
  obtain ⟨e, _, hmap⟩ := List.mem_map.1 hr2
  rw [← hmap]

theorem server_overwrites_score_witness : wScored.score = 1 :=
  (server_overwrites_score wReq [wStored] 3 []).2.2 wScored (by decide)

theorem pathExtensionLower_eq (p : Str) :
    pathExtensionLower p = rustNameExtension (afterLastSep p) := rfl

theorem takeWhile_of_all {p : Char → Bool} (xs : Str) (h : xs.all p = true) :
    xs.takeWhile p = xs := by
  induction xs with
  | nil => rfl
  | cons c cs ih =>
    simp only [List.all_cons, Bool.and_eq_true] at h
    simp [List.takeWhile_cons, h.1, ih h.2]

theorem takeWhile_append_of_all {p : Char → Bool} (xs ys : Str)
    (h : xs.all p = true) : (xs ++ ys).takeWhile p = xs ++ ys.takeWhile p := by
  induction xs with
  | nil => rfl
  | cons c cs ih =>
    simp only [List.all_cons, Bool.and_eq_true] at h
    simp [List.takeWhile_cons, h.1, ih h.2]

theorem afterLastSep_of_sepFree (s : Str)
    (h : s.all (fun c => !isSepChar c) = true) : afterLastSep s = s := by
  unfold afterLastSep
  rw [takeWhile_of_all s.reverse (by simpa using h), List.reverse_reverse]

theorem takeWhile_sep_head (t : Str) :
    ('\\' :: t).takeWhile (fun c => !isSepChar c) = [] := by
  simp [List.takeWhile_cons, isSepChar]

theorem afterLastSep_joinPath (parent name : Str)
    (h : name.all (fun c => !isSepChar c) = true) :
    afterLastSep (joinPath parent name) = name := by
  unfold joinPath
  split
  · rename_i hlast
    unfold afterLastSep
    rw [List.reverse_append,
      takeWhile_append_of_all name.reverse parent.reverse (by simpa using h)]
    have hh : parent.reverse.head? = some '\\' := by
      rw [List.head?_reverse]
      exact hlast
    cases hrev : parent.reverse with
    | nil => rw [hrev] at hh; cases hh
    | cons c t =>
      rw [hrev] at hh
      have hc : c = '\\' := by
        simp only [List.head?_cons, Option.some_inj] at hh
        exact hh
      rw [hc, takeWhile_sep_head, List.append_nil, List.reverse_reverse]
  · unfold afterLastSep
    have hrw : (parent ++ '\\' :: name).reverse =
        name.reverse ++ '\\' :: parent.reverse := by
      simp
    rw [hrw, takeWhile_append_of_all name.reverse _ (by simpa using h),
      takeWhile_sep_head, List.append_nil, List.reverse_reverse]

mutual

theorem fsFlatten_inv (n : FsNode) (parent : Str) (depth : Nat)
    (h : fsNamesSepFree n = true) :
    ∀ it ∈ fsFlatten n parent depth,
      it.name.all (fun c => !isSepChar c) = true ∧
      afterLastSep it.path = it.name := by
  cases n with
  | mk name is_dir size modified metaOk children =>
    intro it hit
    simp only [fsNamesSepFree, Bool.and_eq_true] at h
    simp only [fsFlatten, List.mem_cons] at hit
    rcases hit with hhead | htail
    · rw [hhead]
      exact ⟨h.1, afterLastSep_joinPath parent name h.1⟩
    · cases depth with
      | zero => cases htail
      | succ d =>
        exact fsFlattenList_inv children (joinPath parent name) d h.2 it htail

theorem fsFlattenList_inv (ns : List FsNode) (parent : Str) (depth : Nat)
    (h : fsNamesSepFreeList ns = true) :
    ∀ it ∈ fsFlattenList ns parent depth,
      it.name.all (fun c => !isSepChar c) = true ∧
      afterLastSep it.path = it.name := by
  cases ns with
  | nil => intro it hit; cases hit
  | cons c cs =>
    intro it hit
    simp only [fsNamesSepFreeList, Bool.and_eq_true] at h
    simp only [fsFlattenList, List.mem_append] at hit
    rcases hit with h1 | h2
    · exact fsFlatten_inv c parent depth h.1 it h1
    · exact fsFlattenList_inv cs parent depth h.2 it h2

end

mutual

theorem indexerFlatten_inv (n : FsNode) (parent : Str)
    (h : fsNamesSepFree n = true) :
    ∀ it ∈ indexerFlatten n parent,
      it.name.all (fun c => !isSepChar c) = true ∧
      afterLastSep it.path = it.name := by
  cases n with
  | mk name is_dir size modified metaOk children =>
    intro it hit
    simp only [fsNamesSepFree, Bool.and_eq_true] at h
    simp only [indexerFlatten, List.mem_cons] at hit
    rcases hit with hhead | htail
    · rw [hhead]
      exact ⟨h.1, afterLastSep_joinPath parent name h.1⟩
    · exact indexerFlattenList_inv children (joinPath parent name) h.2 it htail

theorem indexerFlattenList_inv (ns : List FsNode) (parent : Str)
    (h : fsNamesSepFreeList ns = true) :
    ∀ it ∈ indexerFlattenList ns parent,
      it.name.all (fun c => !isSepChar c) = true ∧
      afterLastSep it.path = it.name := by
  cases ns with
  | nil => intro it hit; cases hit
  | cons c cs =>
    intro it hit
    simp only [fsNamesSepFreeList, Bool.and_eq_true] at h
    simp only [indexerFlattenList, List.mem_append] at hit
    rcases hit with h1 | h2
    · exact indexerFlatten_inv c parent h.1 it h1
    · exact indexerFlattenList_inv cs parent h.2 it h2

end

/-- For a separator-free name both extension computations agree. -/
theorem pathExtensionLower_name (name : Str)
    (h : name.all (fun c => !isSepChar c) = true) :
    pathExtensionLower name = rustNameExtension name := by
  rw [pathExtensionLower_eq, afterLastSep_of_sepFree name h]

/-- The drive-root item name `"{d}:\\"` satisfies the extension rule on
both readings (both sides are empty, for every drive letter). -/
theorem driveRoot_ext (d : Char) :
    pathExtensionLower (driveRootPath d) = rustNameExtension (driveRootPath d) := by
  by_cases hd : d = '.'
  · rw [hd]
    rfl
  · show pathExtensionLower [d, ':', '\\'] = rustNameExtension [d, ':', '\\']
    have h1 : pathExtensionLower [d, ':', '\\'] = [] := rfl
    have h2 : rustNameExtension [d, ':', '\\'] = [] := by
      unfold rustNameExtension
      rw [show splitLastDot [d, ':', '\\'] =
          (if d = '.' then some ([], [':', '\\']) else none) from rfl]
      rw [if_neg hd]
    rw [h1, h2]

theorem walkFold_ext (cap : Nat) (drive : Char) (items : List WalkItem)
    (acc : List FileEntry)
    (hit : ∀ it ∈ items, pathExtensionLower it.name = rustNameExtension it.name)
    (hacc : ∀ e ∈ acc, e.extension = rustNameExtension e.name) :
    ∀ e ∈ walkFold cap drive items acc, e.extension = rustNameExtension e.name := by
  induction items generalizing acc with
  | nil => simpa [walkFold] using hacc
  | cons it rest ih =>
    have hitrest : ∀ x ∈ rest, pathExtensionLower x.name = rustNameExtension x.name :=
      fun x hx => hit x (by simp [hx])
    have hnew : ∀ e ∈ acc ++
        [⟨it.name, it.path, pathExtensionLower it.name, it.size, it.modified,
          it.is_dir, drive, 0⟩],
        e.extension = rustNameExtension e.name := by
      intro e he
      rcases List.mem_append.1 he with h1 | h2
      · exact hacc e h1
      · simp only [List.mem_singleton] at h2
        rw [h2]
        exact hit it (by simp)
    intro e he
    simp only [walkFold] at he
    split at he
    · exact ih acc hitrest hacc e he
    · split at he
      · exact ih acc hitrest hacc e he
      · split at he
        · exact ih acc hitrest hacc e he
        · split at he
          · exact hnew e he
          · exact ih _ hitrest hnew e he

theorem mftNamesSepFree_parts (c : MftNode) (h : mftNamesSepFree c = true) :
    c.name.all (fun ch => !isSepChar ch) = true ∧
    mftNamesSepFreeList c.children = true := by
  cases c with
  | mk name is_dir openOk indexOk children =>
    simpa [mftNamesSepFree, MftNode.name, MftNode.children,
      Bool.and_eq_true] using h

theorem mftChildren_inv (cap : Nat) (drive : Char) (p : Str) (cs : List MftNode)
    (acc : List FileEntry)
    (hcs : mftNamesSepFreeList cs = true)
    (hacc : ∀ e ∈ acc, e.extension = rustNameExtension e.name) :
    (∀ e ∈ (mftChildren cap drive p cs acc).1,
      e.extension = rustNameExtension e.name) ∧
    (∀ q ∈ (mftChildren cap drive p cs acc).2.1, mftNamesSepFree q.1 = true) := by
  induction cs generalizing acc with
  | nil =>
    constructor
    · simpa [mftChildren] using hacc
    · simp [mftChildren]
  | cons c rest ih =>
    simp only [mftNamesSepFreeList, Bool.and_eq_true] at hcs
    have hname : c.name.all (fun ch => !isSepChar ch) = true :=
      (mftNamesSepFree_parts c hcs.1).1
    have hnew : ∀ e ∈ acc ++
        [⟨c.name, p ++ '\\' :: c.name, pathExtensionLower c.name, 0, 0,
          c.is_dir, drive, 0⟩],
        e.extension = rustNameExtension e.name := by
      intro e he
      rcases List.mem_append.1 he with h1 | h2
      · exact hacc e h1
      · simp only [List.mem_singleton] at h2
        rw [h2]
        exact pathExtensionLower_name c.name hname
    have hpushed : ∀ fp : Str,
        ∀ q ∈ (if c.is_dir && c.openOk then [(c, fp)] else []),
          mftNamesSepFree q.1 = true := by
      intro fp q hq
      split at hq
      · simp only [List.mem_singleton] at hq
        rw [hq]
        exact hcs.1
      · cases hq
    simp only [mftChildren]
    split
    · exact ih acc hcs.2 hacc
    · split
      · exact ih acc hcs.2 hacc
      · split
        · exact ⟨hnew, hpushed _⟩
        · refine ⟨(ih _ hcs.2 hnew).1, ?_⟩
          intro q hq
          rcases List.mem_append.1 hq with h1 | h2
          · exact hpushed _ q h1
          · exact (ih _ hcs.2 hnew).2 q h2

theorem mftLoop_ext (cap : Nat) (drive : Char) (stack : List (MftNode × Str))
    (acc : List FileEntry) :
    (∀ q ∈ stack, mftNamesSepFree q.1 = true) →
    (∀ e ∈ acc, e.extension = rustNameExtension e.name) →
    ∀ e ∈ mftLoop cap drive stack acc, e.extension = rustNameExtension e.name := by
  induction stack, acc using mftLoop.induct cap drive with
  | case1 acc =>
    intro _ hacc e he
    simp only [mftLoop] at he
    exact hacc e he
  | case2 d current_path rest acc hidx ih =>
    intro hstack hacc e he
    simp only [mftLoop, hidx, if_true] at he
    exact ih (fun q hq => hstack q (by simp [hq])) hacc e he
  | case3 d current_path rest acc hidx r hstop =>
    intro hstack hacc e he
    have hd : mftNamesSepFree d = true := hstack (d, current_path) (by simp)
    have hch := (mftNamesSepFree_parts d hd).2
    have hstop2 :
        (mftChildren cap drive current_path d.children acc).2.2 = true := hstop
    rw [show mftLoop cap drive ((d, current_path) :: rest) acc =
        (mftChildren cap drive current_path d.children acc).1 from by
      simp [mftLoop, hidx, hstop2]] at he
    exact (mftChildren_inv cap drive current_path d.children acc hch hacc).1 e he
  | case4 d current_path rest acc hidx r hstop ih =>
    intro hstack hacc e he
    have hd : mftNamesSepFree d = true := hstack (d, current_path) (by simp)
    have hch := (mftNamesSepFree_parts d hd).2
    have hinv := mftChildren_inv cap drive current_path d.children acc hch hacc
    have hstop2 :
        (mftChildren cap drive current_path d.children acc).2.2 = false := by
      have h2 :
          ¬ (mftChildren cap drive current_path d.children acc).2.2 = true := hstop
      revert h2
      cases (mftChildren cap drive current_path d.children acc).2.2 <;> simp
    rw [show mftLoop cap drive ((d, current_path) :: rest) acc =
        mftLoop cap drive
          ((mftChildren cap drive current_path d.children acc).2.1.reverse ++ rest)
          (mftChildren cap drive current_path d.children acc).1 from by
      simp [mftLoop, hidx, hstop2]] at he
    refine ih ?_ hinv.1 e he
    intro q hq
    rcases List.mem_append.1 hq with h1 | h2
    · exact hinv.2 q (List.mem_reverse.1 h1)
    · exact hstack q (by simp [h2])

theorem indexerFold_ext (drive : Char) (items : List WalkItem)
    (hit : ∀ it ∈ items, pathExtensionLower it.path = rustNameExtension it.name) :
    ∀ e ∈ indexerFold drive items, e.extension = rustNameExtension e.name := by
  induction items with
  | nil => intro e he; cases he
  | cons it rest ih =>
    have hrest : ∀ x ∈ rest, pathExtensionLower x.path = rustNameExtension x.name :=
      fun x hx => hit x (by simp [hx])
    intro e he
    simp only [indexerFold] at he
    split at he
    · exact ih hrest e he
    · rcases List.mem_cons.1 he with h1 | h2
      · rw [h1]
        exact hit it (by simp)
      · exact ih hrest e h2

theorem customFold_ext (max_results : Nat) (qL : Str) (items : List WalkItem)
    (acc : List FileEntry)
    (hit : ∀ it ∈ items, pathExtensionLower it.path = rustNameExtension it.name)
    (hacc : ∀ e ∈ acc, e.extension = rustNameExtension e.name) :
    ∀ e ∈ customFold max_results qL items acc,
      e.extension = rustNameExtension e.name := by
  induction items generalizing acc with
  | nil => simpa [customFold] using hacc
  | cons it rest ih =>
    have hrest : ∀ x ∈ rest, pathExtensionLower x.path = rustNameExtension x.name :=
      fun x hx => hit x (by simp [hx])
    intro e he
    simp only [customFold] at he
    split at he
    · exact hacc e he
    · split at he
      · exact ih acc hrest hacc e he
      · split at he
        · refine ih _ hrest ?_ e he
          intro x hx
          rcases List.mem_append.1 hx with h1 | h2
          · exact hacc x h1
          · simp only [List.mem_singleton] at h2
            rw [h2]
            exact hit it (by simp)
        · exact ih acc hrest hacc e he

/-- Separator-free trees make every flattened item's path-derived
extension agree with its name-derived extension. -/
theorem fsFlattenList_pathExt (ns : List FsNode) (parent : Str) (depth : Nat)
    (h : fsNamesSepFreeList ns = true) :
    ∀ it ∈ fsFlattenList ns parent depth,
      pathExtensionLower it.path = rustNameExtension it.name ∧
      pathExtensionLower it.name = rustNameExtension it.name := by
  intro it hit
  have hinv := fsFlattenList_inv ns parent depth h it hit
  constructor
  · rw [pathExtensionLower_eq, hinv.2]
  · exact pathExtensionLower_name it.name hinv.1

/-- C8 amended: every entry produced by any of the scan strategies —
direct metadata read, drive directory walk, full-drive indexer walk, or
custom-path walk — has as extension the lowercase suffix of its name
after the last dot, except that a name with no dot, or whose only dot is
its leading character (hidden dot-files such as `.gitignore`), yields
the empty extension (`rustNameExtension`); for the path-derived sites
this needs the filesystem invariant that names contain no separator. -/
theorem produced_entry_extension :
    (∀ (d : Char) (env : DriveEnv) (entries : List FileEntry),
      mftNamesSepFree env.mftRoot = true →
      scan_ntfs_mft d env = .ok entries →
      ∀ e ∈ entries, e.extension = rustNameExtension e.name) ∧
    (∀ (d : Char) (env : DriveEnv) (entries : List FileEntry),
      fsNamesSepFreeList env.fsChildren = true →
      scan_walkdir d env = .ok entries →
      ∀ e ∈ entries, e.extension = rustNameExtension e.name) ∧
    (∀ (d : Char) (rootMetaOk : Bool) (rootSize rootModified : Nat)
        (children : List FsNode),
      fsNamesSepFreeList children = true →
      ∀ e ∈ indexer_scan_drive d rootMetaOk rootSize rootModified children,
        e.extension = rustNameExtension e.name) ∧
    (∀ (query scope rootName : Str) (rootIsDir rootMetaOk : Bool)
        (rootSize rootModified : Nat) (children : List FsNode) (max_results : Nat),
      rootName = afterLastSep scope →
      fsNamesSepFreeList children = true →
      ∀ e ∈ search_custom_path query scope rootName rootIsDir rootMetaOk
          rootSize rootModified children max_results,
        e.extension = rustNameExtension e.name) := by
  refine ⟨?_, ?_, ?_, ?_⟩
  · intro d env entries hsep hok e he
    have hentries : entries =
        mftLoop local_max_cache d [(env.mftRoot, [d, ':'])] [] := by
      unfold scan_ntfs_mft at hok
      split at hok
      · cases hok
      · split at hok
        · cases hok
        · cases hok
        · split at hok
          · cases hok
          · cases hok
            rfl
    rw [hentries] at he
    refine mftLoop_ext local_max_cache d [(env.mftRoot, [d, ':'])] [] ?_ ?_ e he
    · intro q hq
      simp only [List.mem_singleton] at hq
      rw [hq]
      exact hsep
    · intro x hx
      cases hx
  · intro d env entries hsep hok e he
    have hentries : entries =
        walkFold local_max_cache d (walkItemsOfDrive d env) [] := by
      unfold scan_walkdir at hok
      cases hok
      rfl
    rw [hentries] at he
    refine walkFold_ext local_max_cache d (walkItemsOfDrive d env) [] ?_
      (fun x hx => by cases hx) e he
    intro it hit
    unfold walkItemsOfDrive at hit
    rcases List.mem_cons.1 hit with h1 | h2
    · rw [h1]
      exact driveRoot_ext d
    · exact (fsFlattenList_pathExt env.fsChildren (driveRootPath d) 19 hsep it h2).2
  · intro d rootMetaOk rootSize rootModified children hsep e he
    unfold indexer_scan_drive at he
    refine indexerFold_ext d _ ?_ e he
    intro it hit
    rcases List.mem_cons.1 hit with h1 | h2
    · rw [h1]
      exact driveRoot_ext d
    · have hinv := indexerFlattenList_inv children (driveRootPath d) hsep it h2
      rw [pathExtensionLower_eq, hinv.2]
  · intro query scope rootName rootIsDir rootMetaOk rootSize rootModified
      children max_results hroot hsep e he
    unfold search_custom_path at he
    refine customFold_ext max_results (lowerStr query) _ [] ?_
      (fun x hx => by cases hx) e he
    intro it hit
    rcases List.mem_cons.1 hit with h1 | h2
    · rw [h1]
      show pathExtensionLower scope = rustNameExtension rootName
      rw [pathExtensionLower_eq, hroot]
    · exact (fsFlattenList_pathExt children scope 9 hsep it h2).1

/-- C8 counterexample: the walk strategy produces, for a file named
`.gitignore`, an entry whose extension is empty, while the claim's
formula — the lowercase suffix of the name after the last dot — gives
`gitignore`; the claim as stated is false for this produced entry. -/
theorem extension_claim_counterexample :
    scan_walkdir 'D' envGitignore = Except.ok
      [⟨("D:\\").toList, ("D:\\").toList, [], 0, 0, true, 'D', 0⟩,
        gitignoreEntry] ∧
    claimedExtension gitignoreEntry.name = ("gitignore").toList ∧
    gitignoreEntry.extension ≠ claimedExtension gitignoreEntry.name := by
  decide

theorem produced_entry_extension_witness :
    gitignoreEntry.extension = rustNameExtension gitignoreEntry.name ∧
    (⟨("b.tar.gz").toList, ("E:\\b.tar.gz").toList, ("gz").toList, 4, 0,
        false, 'E', 0⟩ : FileEntry).extension =
      rustNameExtension (("b.tar.gz").toList) :=
  ⟨produced_entry_extension.2.1 'D' envGitignore
      (walkFold local_max_cache 'D' (walkItemsOfDrive 'D' envGitignore) [])
      (by decide) rfl gitignoreEntry (by decide),
   produced_entry_extension.2.2.1 'E' true 1 2 envTarGz (by decide)
      ⟨("b.tar.gz").toList, ("E:\\b.tar.gz").toList, ("gz").toList, 4, 0,
        false, 'E', 0⟩ (by decide)⟩
